import Mathlib

/-!
Shared-memory blocking ring queue (`Crowd.cpp`).

A shallow embedding of `blocking_queue_t<N>` and of the two roles of `main`.

* `unsigned` values are natural numbers; every addition and subtraction the
  source performs on them is reduced modulo `2 ^ 32` (`uadd`, `usub`).
* `char` values are natural numbers (`0` is NUL, `10` is the newline).
* The mutex and the two condition variables carry no data the sequential
  behaviour depends on.  A call that would enter `pthread_cond_wait` in a
  run where no other process changes the queue never returns; such a call
  is `none`.
* Two processes on one queue are a sequence of scheduling decisions, each of
  which lets one process make a whole call: a call holds the mutex from lock
  to unlock.
-/

namespace ShmQueue

/-! ## Machine arithmetic on `unsigned` -/

/-- Number of values of the 32-bit `unsigned` type. -/
def UINT_RANGE : Nat := 2 ^ 32

/-- Addition of two `unsigned` values. -/
def uadd (a b : Nat) : Nat := (a + b) % UINT_RANGE

/-- Subtraction of two `unsigned` values (both below `2 ^ 32`). -/
def usub (a b : Nat) : Nat := (a + UINT_RANGE - b) % UINT_RANGE

/-- Integral conversion of a `bool` (`false` is 0, `true` is 1). -/
def boolToNat (b : Bool) : Nat := if b then 1 else 0

/-! ## The queue structure -/

/-- The data fields of `blocking_queue_t<N>`: the flag `m_init`, the
`N + 1` slot array `m_buffer` (slot index to stored `char`), the producer
cursor `m_p` and the consumer cursor `m_c`. -/
structure blocking_queue_t where
  m_init : Bool
  m_buffer : Nat → Nat
  m_p : Nat
  m_c : Nat

/-- Index helper `curr(pos)`: `pos % (N + 1)`. -/
def curr (N pos : Nat) : Nat := pos % uadd N 1

/-- Index helper `prev(pos)`: `N` when `pos == 0`, else `(pos - 1) % (N + 1)`. -/
def prev (N pos : Nat) : Nat :=
  if pos = 0 then N else usub pos 1 % uadd N 1

/-- Index helper `next(pos)`: `curr(pos + 1)`. -/
def next (N pos : Nat) : Nat := curr N (uadd pos 1)

/-- The `unsigned` value of the expression `curr(prev(m_p) - curr(m_c))`
inside `size()`, before it is converted to the return type. -/
def size_expr (N : Nat) (q : blocking_queue_t) : Nat :=
  curr N (usub (prev N q.m_p) (curr N q.m_c))

/-- Method `bool size() const`: the expression converted to `bool`. -/
def size (N : Nat) (q : blocking_queue_t) : Bool :=
  decide (size_expr N q ≠ 0)

/-- Method `is_empty()`: `size() == 0`. -/
def is_empty (N : Nat) (q : blocking_queue_t) : Bool :=
  boolToNat (size N q) == 0

/-- Method `is_full()`: `size() == N - 1`. -/
def is_full (N : Nat) (q : blocking_queue_t) : Bool :=
  boolToNat (size N q) == usub N 1

/-- Method `init()`: when `m_init` is false, set `m_p = 1`, `m_c = 0`,
`m_init = true`; otherwise nothing. -/
def init (q : blocking_queue_t) : blocking_queue_t :=
  if !q.m_init then { q with m_p := 1, m_c := 0, m_init := true } else q

/-- The update block of `push` (after its wait loop):
`m_buffer[prev(m_p)] = x; m_p = next(m_p);`. -/
def push_body (N : Nat) (q : blocking_queue_t) (x : Nat) : blocking_queue_t :=
  { q with m_buffer := Function.update q.m_buffer (prev N q.m_p) x,
           m_p := next N q.m_p }

/-- The update block of `pop` (after its wait loop):
`ret = m_buffer[curr(m_c)]; m_c = next(m_c);`, giving `ret` and the new state. -/
def pop_body (N : Nat) (q : blocking_queue_t) : Nat × blocking_queue_t :=
  (q.m_buffer (curr N q.m_c), { q with m_c := next N q.m_c })

/-- Method `push(x)`: waits while `is_full()`, then runs the update block.
`none` when the call waits. -/
def push (N : Nat) (q : blocking_queue_t) (x : Nat) : Option blocking_queue_t :=
  if is_full N q then none else some (push_body N q x)

/-- Method `pop()`: waits while `is_empty()`, then runs the update block.
`none` when the call waits. -/
def pop (N : Nat) (q : blocking_queue_t) : Option (Nat × blocking_queue_t) :=
  if is_empty N q then none else some (pop_body N q)

/-! ## Sequences of calls -/

/-- One call on the queue. -/
inductive Op where
  | push (x : Nat)
  | pop
  deriving DecidableEq

/-- Run a sequence of calls one after the other; the result is the final
state and the bytes returned by the pops, or `none` as soon as a call waits. -/
def run (N : Nat) : blocking_queue_t → List Op → Option (blocking_queue_t × List Nat)
  | q, [] => some (q, [])
  | q, Op.push x :: ops =>
    match push N q x with
    | none => none
    | some q1 => run N q1 ops
  | q, Op.pop :: ops =>
    match pop N q with
    | none => none
    | some (r, q1) =>
      match run N q1 ops with
      | none => none
      | some (q2, out) => some (q2, r :: out)

/-- The bytes given to `push` by a sequence of calls, in order. -/
def pushed : List Op → List Nat
  | [] => []
  | Op.push x :: ops => x :: pushed ops
  | Op.pop :: ops => pushed ops

/-- Zero-filled memory of a newly created segment. -/
def zeroed : blocking_queue_t :=
  { m_init := false, m_buffer := fun _ => 0, m_p := 0, m_c := 0 }

/-! ## The two roles of `main` -/

/-- The loop `for (char x : line) queue->push(x);`. -/
def push_chars (N : Nat) : blocking_queue_t → List Nat → Option blocking_queue_t
  | q, [] => some q
  | q, x :: xs =>
    match push N q x with
    | none => none
    | some q1 => push_chars N q1 xs

/-- The producer loop of `main` on the lines `std::getline` delivers: each
line is pushed followed by a newline; at end of input NUL is pushed and the
loop ends.  `none` when a push waits. -/
def producer_loop (N : Nat) : blocking_queue_t → List (List Nat) → Option blocking_queue_t
  | q, [] => push N q 0
  | q, line :: rest =>
    match push_chars N q line with
    | none => none
    | some q1 =>
      match push N q1 10 with
      | none => none
      | some q2 => producer_loop N q2 rest

/-- How an unbounded loop ended within a given number of iterations. -/
inductive LoopResult (α : Type) where
  | finished (a : α)
  | waiting
  | running

/-- The consumer loop of `main`, at most `fuel` iterations: pop a byte, stop
on NUL, otherwise write it to the output.  The result holds the bytes
written and the final state. -/
def consumer_loop (N : Nat) : Nat → blocking_queue_t → List Nat →
    LoopResult (List Nat × blocking_queue_t)
  | 0, _, _ => LoopResult.running
  | fuel + 1, q, out =>
    match pop N q with
    | none => LoopResult.waiting
    | some (x, q1) =>
      if x = 0 then LoopResult.finished (out, q1)
      else consumer_loop N fuel q1 (out ++ [x])

/-- The server branch of `main`: `queue->init()` then the producer loop. -/
def server (N : Nat) (q : blocking_queue_t) (lines : List (List Nat)) :
    Option blocking_queue_t :=
  producer_loop N (init q) lines

/-- The client branch of `main`: `queue->init()` then the consumer loop,
starting with nothing written. -/
def client (N : Nat) (fuel : Nat) (q : blocking_queue_t) :
    LoopResult (List Nat × blocking_queue_t) :=
  consumer_loop N fuel (init q) []

/-- The byte stream the spec describes for a list of lines: each line
followed by a newline byte. -/
def with_newlines (lines : List (List Nat)) : List Nat :=
  lines.flatMap (fun l => l ++ [10])

/-- The encoding the spec describes: the lines with their newlines, then a
single NUL. -/
def encoding (lines : List (List Nat)) : List Nat :=
  with_newlines lines ++ [0]

/-- The slots of `buf` from index `j` on hold the bytes `ys`, in order. -/
def stored (buf : Nat → Nat) : Nat → List Nat → Prop
  | _, [] => True
  | j, y :: ys => buf j = y ∧ stored buf (j + 1) ys

/-! ## Call sequences and spec-side formulas used in the statements -/

/-- The calls `push 65`, then 1025 times `push 66`, then one `pop`. -/
def overrun_calls : List Op :=
  Op.push 65 :: List.replicate 1025 (Op.push 66) ++ [Op.pop]

/-- The calls `push 65` repeated 1024 times. -/
def fill_calls : List Op :=
  List.replicate 1024 (Op.push 65)

/-- The calls: 1021 pushes, 1021 pops, then 4 more pushes. -/
def wrap_calls : List Op :=
  List.replicate 1021 (Op.push 65) ++ List.replicate 1021 Op.pop
    ++ List.replicate 4 (Op.push 66)

/-- The occupancy the spec derives from the cursors:
`(p - 1 - c) mod (capacity + 1)` over the integers. -/
def spec_size (N p c : Nat) : Int :=
  ((p : Int) - 1 - (c : Int)) % ((N : Int) + 1)

/-! ## Update blocks in sequence -/

/-- A call whose state update is applied: `init()`, or the update block of
`push(x)` or of `pop()`. -/
inductive Call where
  | init
  | push (x : Nat)
  | pop
  deriving DecidableEq

/-- The state after the update of one call. -/
def apply_call (N : Nat) (q : blocking_queue_t) : Call → blocking_queue_t
  | Call.init => init q
  | Call.push x => push_body N q x
  | Call.pop => (pop_body N q).2

/-- The state after the updates of a sequence of calls. -/
def apply_calls (N : Nat) (q : blocking_queue_t) (cs : List Call) : blocking_queue_t :=
  cs.foldl (apply_call N) q

/-- Run the update blocks of a sequence of `push` and `pop` calls, without
their wait loops: the final state and the bytes read by the pops. -/
def run_body (N : Nat) : blocking_queue_t → List Op → blocking_queue_t × List Nat
  | q, [] => (q, [])
  | q, Op.push x :: ops => run_body N (push_body N q x) ops
  | q, Op.pop :: ops =>
    ((run_body N (pop_body N q).2 ops).1,
      (pop_body N q).1 :: (run_body N (pop_body N q).2 ops).2)

/-- The number of `pop` calls of a sequence. -/
def pops : List Op → Nat
  | [] => 0
  | Op.push _ :: ops => pops ops
  | Op.pop :: ops => pops ops + 1

/-- Starting with `n` bytes pushed and not yet popped, that number stays
between 0 and `N` along the sequence: every push happens below `N`, every
pop above 0. -/
def within_capacity (N : Nat) : Nat → List Op → Bool
  | _, [] => true
  | n, Op.push _ :: ops => decide (n < N) && within_capacity N (n + 1) ops
  | n, Op.pop :: ops => decide (0 < n) && within_capacity N (n - 1) ops

/-- The slots of `buf`, taken modulo `N + 1` from the running index `a` on,
hold the bytes `ys` in order. -/
def ring_holds (N : Nat) (buf : Nat → Nat) : Nat → List Nat → Prop
  | _, [] => True
  | a, y :: ys => buf (a % (N + 1)) = y ∧ ring_holds N buf (a + 1) ys

/-- The queue state represents the unread bytes `content`, the first of them
being byte number `a` of the stream. -/
def represents (N : Nat) (q : blocking_queue_t) (a : Nat) (content : List Nat) : Prop :=
  q.m_c = a % (N + 1) ∧ q.m_p = (a + content.length + 1) % (N + 1)
    ∧ content.length ≤ N ∧ ring_holds N q.m_buffer a content

/-! ## Return codes of the pthread calls -/

/-- The pthread calls made by `push` and `pop`. -/
inductive Prim where
  | mutex_lock
  | cond_wait
  | cond_broadcast
  | mutex_unlock
  deriving DecidableEq

/-- A line written by `CHECK`: the failing statement with `EINVAL`, or the
failing statement with its unrecognized code. -/
inductive LogLine where
  | failed_einval (st : Prim)
  | failed_unknown (st : Prim) (e : Int)
  deriving DecidableEq

/-- Macro `CHECK(ST)` on the return code `e` of `ST`: nothing for 0, one line
for `EINVAL`, one line with the code otherwise.  The value of `EINVAL` comes
from `errno.h` and is a parameter. -/
def CHECK (einval : Int) (st : Prim) (e : Int) : List LogLine :=
  if e = 0 then []
  else if e = einval then [LogLine.failed_einval st]
  else [LogLine.failed_unknown st e]

/-- Apply a function to the value of a finished loop. -/
def LoopResult.map {α β : Type} (f : α → β) : LoopResult α → LoopResult β
  | LoopResult.finished a => LoopResult.finished (f a)
  | LoopResult.waiting => LoopResult.waiting
  | LoopResult.running => LoopResult.running

/-- The wait loop of `push`, `while (is_full()) pthread_cond_wait(...)`, at
most `fuel` tests.  The return value of the wait is discarded, and with no
other process changing the queue every test sees the same state. -/
def push_wait (N : Nat) (q : blocking_queue_t) : Nat → LoopResult Unit
  | 0 => LoopResult.running
  | fuel + 1 => if is_full N q then push_wait N q fuel else LoopResult.finished ()

/-- The wait loop of `pop`, `while (is_empty()) CHECK(pthread_cond_wait(...))`,
at most `fuel` tests: `waits i` is the return code of wait number `i`, and the
result is the log with the lines of these waits added. -/
def pop_wait (N : Nat) (einval : Int) (waits : Nat → Int) (q : blocking_queue_t) :
    Nat → Nat → List LogLine → LoopResult (List LogLine)
  | 0, _, _ => LoopResult.running
  | fuel + 1, i, log =>
    if is_empty N q then
      pop_wait N einval waits q fuel (i + 1) (log ++ CHECK einval Prim.cond_wait (waits i))
    else LoopResult.finished log

/-- Method `push(x)` with the return codes of its `pthread_mutex_lock`,
`pthread_cond_broadcast` and `pthread_mutex_unlock` calls: the new state and
the lines logged. -/
def push_rc (N : Nat) (einval lock bcast unlock : Int) (q : blocking_queue_t) (x : Nat)
    (fuel : Nat) : LoopResult (blocking_queue_t × List LogLine) :=
  match push_wait N q fuel with
  | LoopResult.finished _ =>
    LoopResult.finished (push_body N q x,
      CHECK einval Prim.mutex_lock lock ++ CHECK einval Prim.cond_broadcast bcast
        ++ CHECK einval Prim.mutex_unlock unlock)
  | LoopResult.waiting => LoopResult.waiting
  | LoopResult.running => LoopResult.running

/-- Method `pop()` with the return codes of its `pthread_mutex_lock`,
`pthread_cond_wait`, `pthread_cond_broadcast` and `pthread_mutex_unlock`
calls: the byte returned, the new state and the lines logged. -/
def pop_rc (N : Nat) (einval lock bcast unlock : Int) (waits : Nat → Int)
    (q : blocking_queue_t) (fuel : Nat) : LoopResult (Nat × blocking_queue_t × List LogLine) :=
  match pop_wait N einval waits q fuel 0 (CHECK einval Prim.mutex_lock lock) with
  | LoopResult.finished log =>
    LoopResult.finished ((pop_body N q).1, (pop_body N q).2,
      log ++ CHECK einval Prim.cond_broadcast bcast ++ CHECK einval Prim.mutex_unlock unlock)
  | LoopResult.waiting => LoopResult.waiting
  | LoopResult.running => LoopResult.running

/-- The outcome of a call of `push` or `pop` as a loop result: a call that
waits is still running after any number of tests. -/
def as_loop {α : Type} : Option α → LoopResult α
  | some a => LoopResult.finished a
  | none => LoopResult.running

/-! ## Two processes on one queue -/

/-- A producer process and a consumer process attached to one queue: the
queue, the bytes the producer has still to push, the number of pops the
consumer has still to make, and the bytes popped so far. -/
structure Procs where
  queue : blocking_queue_t
  to_push : List Nat
  to_pop : Nat
  popped : List Nat

/-- One scheduling decision.  `true`: the producer process runs; its next
`push` completes, or it stays in the wait loop, or it has finished.
`false`: the consumer process runs likewise with its next `pop`.  A call is
one step because it holds the mutex from lock to unlock. -/
def sched_step (N : Nat) (s : Procs) (producer : Bool) : Procs :=
  if producer then
    match s.to_push with
    | [] => s
    | x :: rest =>
      match push N s.queue x with
      | none => s
      | some q1 => { s with queue := q1, to_push := rest }
  else
    match s.to_pop with
    | 0 => s
    | k + 1 =>
      match pop N s.queue with
      | none => s
      | some (r, q1) => { s with queue := q1, to_pop := k, popped := s.popped ++ [r] }

/-- The configuration after a sequence of scheduling decisions. -/
def sched_run (N : Nat) (s : Procs) (sched : List Bool) : Procs :=
  sched.foldl (sched_step N) s

/-- The 100,000 sequential bytes of the stress scenario. -/
def stress_bytes : List Nat :=
  (List.range 100000).map (fun i => i % 256)

/-- The stress scenario at its start: an initialized queue, 100,000 bytes to
push and 100,000 pops to make. -/
def stress_start : Procs :=
  { queue := init zeroed, to_push := stress_bytes, to_pop := 100000, popped := [] }

/-- The interleaving in which the producer makes all its pushes first and
the consumer then runs 575 times. -/
def producer_first : List Bool :=
  List.replicate 100000 true ++ List.replicate 575 false

/-- The calls: one push, one pop, then 1024 pushes. -/
def refill_calls : List Op :=
  Op.push 65 :: Op.pop :: List.replicate 1024 (Op.push 66)

/-! ## Arithmetic of the index helpers -/

theorem UINT_RANGE_eq : UINT_RANGE = 4294967296 := by
  unfold UINT_RANGE; norm_num

theorem boolToNat_le_one (b : Bool) : boolToNat b ≤ 1 := by
  cases b <;> simp [boolToNat]

/-- Under the `static_assert` on `N`, `N + 1` does not overflow. -/
theorem uadd_capacity (N : Nat) (hN : N < 2 ^ 32 - 1) : uadd N 1 = N + 1 := by
  unfold uadd
  rw [UINT_RANGE_eq]
  omega

theorem curr_of_le (N x : Nat) (hN : N < 2 ^ 32 - 1) (hx : x ≤ N) : curr N x = x := by
  unfold curr
  rw [uadd_capacity N hN]
  exact Nat.mod_eq_of_lt (by omega)

theorem prev_zero (N : Nat) : prev N 0 = N := by
  simp [prev]

theorem prev_succ (N x : Nat) (hN : N < 2 ^ 32 - 1) (hx : x < N) :
    prev N (x + 1) = x := by
  unfold prev usub
  rw [uadd_capacity N hN, UINT_RANGE_eq, if_neg (by omega)]
  have h1 : (x + 1 + 4294967296 - 1) % 4294967296 = x := by omega
  rw [h1]
  exact Nat.mod_eq_of_lt (by omega)

theorem next_of_lt (N x : Nat) (hN : N < 2 ^ 32 - 1) (hx : x < N) :
    next N x = x + 1 := by
  unfold next uadd
  rw [UINT_RANGE_eq]
  have h1 : (x + 1) % 4294967296 = x + 1 := by omega
  rw [h1]
  exact curr_of_le N (x + 1) hN (by omega)

theorem next_capacity (N : Nat) (hN : N < 2 ^ 32 - 1) : next N N = 0 := by
  unfold next curr
  rw [uadd_capacity N hN]
  exact Nat.mod_self _

/-- Without wraparound of the subtraction, the expression inside `size()` is
the distance between the two slots. -/
theorem size_expr_of_le (N : Nat) (q : blocking_queue_t) (hN : N < 2 ^ 32 - 1)
    (hp : prev N q.m_p ≤ N) (hc : q.m_c ≤ prev N q.m_p) :
    size_expr N q = prev N q.m_p - q.m_c := by
  unfold size_expr
  rw [curr_of_le N q.m_c hN (by omega)]
  have h1 : usub (prev N q.m_p) q.m_c = prev N q.m_p - q.m_c := by
    unfold usub
    rw [UINT_RANGE_eq]
    omega
  rw [h1]
  exact curr_of_le N _ hN (by omega)

/-- For capacity 1024 the comparison `size() == N - 1` is never true. -/
theorem is_full_1024 (q : blocking_queue_t) : is_full 1024 q = false := by
  unfold is_full
  have h := boolToNat_le_one (size 1024 q)
  have h2 : usub 1024 1 = 1023 := by
    unfold usub
    rw [UINT_RANGE_eq]
  rw [h2]
  simp only [beq_eq_false_iff_ne, ne_eq]
  omega

theorem push_1024 (q : blocking_queue_t) (x : Nat) :
    push 1024 q x = some (push_body 1024 q x) := by
  simp [push, is_full_1024]

/-! ## The update blocks without wraparound -/

theorem prev_le (N p : Nat) (hN : N < 2 ^ 32 - 1) : prev N p ≤ N := by
  unfold prev
  split
  · exact Nat.le_refl N
  · rw [uadd_capacity N hN]
    exact Nat.le_of_lt_succ (Nat.mod_lt _ (Nat.succ_pos N))

/-- A normalized producer cursor whose write slot `k` is below `N` is `k + 1`. -/
theorem cursor_of_prev (N p k : Nat) (hN : N < 2 ^ 32 - 1) (hp : p ≤ N)
    (hk : prev N p = k) (hlt : k < N) : p = k + 1 := by
  cases p with
  | zero => rw [prev_zero] at hk; omega
  | succ j =>
    rw [prev_succ N j hN (by omega)] at hk
    rw [hk]

theorem push_body_step (N : Nat) (q : blocking_queue_t) (x k : Nat) (hN : N < 2 ^ 32 - 1)
    (hp : q.m_p ≤ N) (hk : prev N q.m_p = k) (hlt : k < N) :
    (push_body N q x).m_p ≤ N ∧ prev N (push_body N q x).m_p = k + 1
      ∧ (push_body N q x).m_buffer = Function.update q.m_buffer k x := by
  have hpk := cursor_of_prev N q.m_p k hN hp hk hlt
  have hb : (push_body N q x).m_buffer = Function.update q.m_buffer k x := by
    simp [push_body, hk]
  have hnext : (push_body N q x).m_p = next N (k + 1) := by
    simp [push_body, hpk]
  rw [hnext]
  by_cases hlast : k + 1 = N
  · rw [hlast, next_capacity N hN, prev_zero]
    exact ⟨Nat.zero_le _, rfl, hb⟩
  · rw [next_of_lt N (k + 1) hN (by omega), prev_succ N (k + 1) hN (by omega)]
    exact ⟨by omega, rfl, hb⟩

/-- Pushing `xs` while the write slot stays at or below `N` stores `xs` in
consecutive slots and touches neither the earlier slots, the consumer cursor
nor the flag. -/
theorem push_all_spec (N : Nat) (hN : N < 2 ^ 32 - 1) (xs : List Nat) :
    ∀ (q : blocking_queue_t) (k : Nat), q.m_p ≤ N → prev N q.m_p = k → k + xs.length ≤ N →
      (xs.foldl (push_body N) q).m_p ≤ N
      ∧ prev N (xs.foldl (push_body N) q).m_p = k + xs.length
      ∧ (xs.foldl (push_body N) q).m_c = q.m_c
      ∧ (xs.foldl (push_body N) q).m_init = q.m_init
      ∧ (∀ i, i < k → (xs.foldl (push_body N) q).m_buffer i = q.m_buffer i)
      ∧ stored (xs.foldl (push_body N) q).m_buffer k xs := by
  induction xs with
  | nil =>
    intro q k hp hk _
    exact ⟨hp, by simpa using hk, rfl, rfl, fun _ _ => rfl, trivial⟩
  | cons x xs ih =>
    intro q k hp hk hlen
    simp only [List.length_cons] at hlen
    obtain ⟨h1, h2, h3⟩ := push_body_step N q x k hN hp hk (by omega)
    obtain ⟨g1, g2, g3, g4, g5, g6⟩ := ih (push_body N q x) (k + 1) h1 h2 (by omega)
    simp only [List.foldl_cons, List.length_cons]
    refine ⟨g1, by omega, g3, g4, ?_, ?_, g6⟩
    · intro i hi
      rw [g5 i (by omega), h3, Function.update_noteq (by omega)]
    · rw [g5 k (by omega), h3, Function.update_same]

/-! ## `pop` without wraparound -/

theorem pop_of_lt (N : Nat) (q : blocking_queue_t) (hN : N < 2 ^ 32 - 1)
    (hc : q.m_c < prev N q.m_p) :
    pop N q = some (q.m_buffer q.m_c, { q with m_c := q.m_c + 1 }) := by
  have hp := prev_le N q.m_p hN
  have hsz := size_expr_of_le N q hN hp (Nat.le_of_lt hc)
  have hne : is_empty N q = false := by
    have : size N q = true := by
      unfold size
      rw [hsz]
      exact decide_eq_true (by omega)
    simp [is_empty, this, boolToNat]
  unfold pop
  rw [hne]
  simp only [Bool.false_eq_true, if_false, pop_body]
  rw [curr_of_le N q.m_c hN (by omega), next_of_lt N q.m_c hN (by omega)]

/-! ## The loops of `main` -/

theorem push_chars_1024 (xs : List Nat) :
    ∀ q : blocking_queue_t, push_chars 1024 q xs = some (xs.foldl (push_body 1024) q) := by
  induction xs with
  | nil => intro q; rfl
  | cons x xs ih =>
    intro q
    simp only [push_chars, push_1024, List.foldl_cons]
    exact ih _

theorem push_chars_append (N : Nat) (xs ys : List Nat) :
    ∀ q : blocking_queue_t,
      push_chars N q (xs ++ ys) = (push_chars N q xs).bind (fun q1 => push_chars N q1 ys) := by
  induction xs with
  | nil => intro q; rfl
  | cons x xs ih =>
    intro q
    simp only [List.cons_append, push_chars]
    cases push N q x with
    | none => rfl
    | some q1 => exact ih q1

theorem push_chars_single (N : Nat) (q : blocking_queue_t) (x : Nat) :
    push_chars N q [x] = push N q x := by
  simp only [push_chars]
  cases push N q x <;> rfl

/-- The producer loop pushes exactly the bytes of the encoding. -/
theorem producer_loop_eq (N : Nat) (lines : List (List Nat)) :
    ∀ q : blocking_queue_t, producer_loop N q lines = push_chars N q (encoding lines) := by
  induction lines with
  | nil =>
    intro q
    simp [producer_loop, encoding, with_newlines, push_chars_single]
  | cons l rest ih =>
    intro q
    have henc : encoding (l :: rest) = l ++ ([10] ++ encoding rest) := by
      simp [encoding, with_newlines]
    rw [henc, push_chars_append, producer_loop]
    cases push_chars N q l with
    | none => rfl
    | some q1 =>
      simp only [Option.some_bind]
      rw [push_chars_append, push_chars_single]
      cases push N q1 10 with
      | none => rfl
      | some q2 => simpa using ih q2

/-- The consumer loop on a queue whose unread slots hold `ys` (no NUL in it)
followed by NUL, with no wraparound between the cursors: it writes `ys`,
stops at the NUL and leaves the consumer cursor on the write slot. -/
theorem consumer_loop_spec (N : Nat) (hN : N < 2 ^ 32 - 1) (ys : List Nat) :
    ∀ (q : blocking_queue_t) (out : List Nat) (fuel : Nat),
      q.m_c + ys.length + 1 = prev N q.m_p →
      stored q.m_buffer q.m_c (ys ++ [0]) →
      (∀ y ∈ ys, y ≠ 0) →
      ys.length + 1 ≤ fuel →
      ∃ q2, consumer_loop N fuel q out = LoopResult.finished (out ++ ys, q2)
        ∧ q2.m_c = prev N q.m_p ∧ q2.m_p = q.m_p := by
  induction ys with
  | nil =>
    intro q out fuel hc hs _ hf
    obtain ⟨f, rfl⟩ : ∃ f, fuel = f + 1 := ⟨fuel - 1, by simp at hf; omega⟩
    simp only [List.length_nil, Nat.add_zero] at hc
    have hpop := pop_of_lt N q hN (by omega)
    have h0 : q.m_buffer q.m_c = 0 := hs.1
    refine ⟨{ q with m_c := q.m_c + 1 }, ?_, hc, rfl⟩
    simp [consumer_loop, hpop, h0]
  | cons y ys ih =>
    intro q out fuel hc hs hnz hf
    simp only [List.length_cons] at hc hf
    obtain ⟨f, rfl⟩ : ∃ f, fuel = f + 1 := ⟨fuel - 1, by omega⟩
    have hpop := pop_of_lt N q hN (by omega)
    have hy : q.m_buffer q.m_c = y := hs.1
    have hy0 : y ≠ 0 := hnz y (List.mem_cons_self y ys)
    obtain ⟨q2, h1, h2, h3⟩ := ih { q with m_c := q.m_c + 1 } (out ++ [y]) f
      (by simp only []; omega) hs.2
      (fun z hz => hnz z (List.mem_cons_of_mem y hz)) (by omega)
    refine ⟨q2, ?_, h2, h3⟩
    simp only [consumer_loop, hpop, hy, if_neg hy0]
    simpa using h1

theorem init_of_fresh (q : blocking_queue_t) (h : q.m_init = false) :
    init q = { q with m_p := 1, m_c := 0, m_init := true } := by
  simp [init, h]

theorem init_of_initialized (q : blocking_queue_t) (h : q.m_init = true) : init q = q := by
  simp [init, h]

theorem with_newlines_no_nul (lines : List (List Nat)) (h : ∀ l ∈ lines, (0 : Nat) ∉ l) :
    ∀ y ∈ with_newlines lines, y ≠ 0 := by
  intro y hy
  simp only [with_newlines, List.mem_flatMap, List.mem_append, List.mem_singleton] at hy
  obtain ⟨l, hl, hyl | hyl⟩ := hy
  · intro h0
    exact h l hl (h0 ▸ hyl)
  · omega

/-- C9 (end-to-end transport at capacity 1024): for every list of lines
without a NUL byte whose encoding is at most 1024 bytes long, the server
role on memory whose flag is false completes without waiting, and the client
role then writes exactly the lines each followed by a newline, stops on the
NUL after popping every byte of the encoding, and never waits (any number of
iterations from the length of the encoding on is enough). -/
theorem end_to_end_transport (mem : blocking_queue_t) (lines : List (List Nat))
    (hfresh : mem.m_init = false)
    (hnul : ∀ l ∈ lines, (0 : Nat) ∉ l)
    (hlen : (encoding lines).length ≤ 1024) :
    ∃ q1, server 1024 mem lines = some q1
      ∧ ∀ fuel, (encoding lines).length ≤ fuel →
          ∃ q2, client 1024 fuel q1 = LoopResult.finished (with_newlines lines, q2)
            ∧ q2.m_c = (encoding lines).length := by
  have hN : 1024 < 2 ^ 32 - 1 := by norm_num
  have hinit := init_of_fresh mem hfresh
  have hp1 : prev 1024 (init mem).m_p = 0 := by
    rw [hinit]
    exact prev_succ 1024 0 hN (by norm_num)
  obtain ⟨g1, g2, g3, g4, g5, g6⟩ := push_all_spec 1024 hN (encoding lines) (init mem) 0
    (by rw [hinit]; norm_num) hp1 (by omega)
  refine ⟨(encoding lines).foldl (push_body 1024) (init mem), ?_, ?_⟩
  · rw [server, producer_loop_eq, push_chars_1024]
  · intro fuel hfuel
    have hini : ((encoding lines).foldl (push_body 1024) (init mem)).m_init = true := by
      rw [g4, hinit]
    have hc0 : ((encoding lines).foldl (push_body 1024) (init mem)).m_c = 0 := by
      rw [g3, hinit]
    have hL : (encoding lines).length = (with_newlines lines).length + 1 := by
      simp [encoding]
    obtain ⟨q2, h1, h2, _⟩ := consumer_loop_spec 1024 hN (with_newlines lines)
      ((encoding lines).foldl (push_body 1024) (init mem)) [] fuel
      (by rw [hc0, g2]; omega) (by rw [hc0]; exact g6)
      (with_newlines_no_nul lines hnul) (by omega)
    refine ⟨q2, ?_, ?_⟩
    · rw [client, init_of_initialized _ hini]
      simpa using h1
    · rw [h2, g2]; omega

theorem end_to_end_transport_hi :
    zeroed.m_init = false
      ∧ (∀ l ∈ [[104, 105]], (0 : Nat) ∉ l)
      ∧ (encoding [[104, 105]]).length ≤ 1024
      ∧ with_newlines [[104, 105]] = [104, 105, 10]
      ∧ ∃ q1, server 1024 zeroed [[104, 105]] = some q1
        ∧ ∀ fuel, (encoding [[104, 105]]).length ≤ fuel →
            ∃ q2, client 1024 fuel q1
                = LoopResult.finished (with_newlines [[104, 105]], q2)
              ∧ q2.m_c = (encoding [[104, 105]]).length :=
  ⟨rfl, by decide, by decide, by decide,
    end_to_end_transport zeroed [[104, 105]] rfl (by decide) (by decide)⟩

/-! ## The remaining claims -/

set_option maxRecDepth 1000000 in
/-- C1 (FIFO law at capacity 1024), evaluated on the code: after `init`, the
calls `push 65`, 1025 times `push 66` and one `pop` all complete without
waiting, and the pop returns 66 although the first byte pushed was 65. -/
theorem fifo_overrun_1024 :
    (run 1024 (init zeroed) overrun_calls).map (fun r => r.2) = some [66]
      ∧ pushed overrun_calls = 65 :: List.replicate 1025 66 := by
  decide

/-- C2 (wraparound scenario at capacity 4), evaluated on the code: after
`init` and the pushes of A, B, C, D (65..68) `is_full()` is false; the pop
returns A; after the push of E (69) `is_empty()` is true, so the next pop
waits. -/
theorem wraparound_capacity4 :
    (run 4 (init zeroed) [Op.push 65, Op.push 66, Op.push 67, Op.push 68]).map
        (fun r => (is_full 4 r.1, r.2)) = some (false, [])
      ∧ (run 4 (init zeroed) [Op.push 65, Op.push 66, Op.push 67, Op.push 68, Op.pop]).map
        (fun r => (is_full 4 r.1, r.2)) = some (false, [65])
      ∧ (run 4 (init zeroed)
          [Op.push 65, Op.push 66, Op.push 67, Op.push 68, Op.pop, Op.push 69]).map
        (fun r => (r.1.m_p, r.1.m_c, is_empty 4 r.1, (pop 4 r.1).isNone, r.2))
          = some (1, 1, true, true, [65])
      ∧ (run 4 (init zeroed)
          [Op.push 65, Op.push 66, Op.push 67, Op.push 68, Op.pop, Op.push 69, Op.pop]).isNone
          = true := by
  decide

set_option maxRecDepth 1000000 in
/-- C3 (`is_full()` exact at capacity 1024), evaluated on the code: after
`init` and 1024 pushes with no pop the cursors are `m_p = 0`, `m_c = 0`,
`is_full()` is false and a further push does not wait. -/
theorem full_not_reported_1024 :
    (run 1024 (init zeroed) fill_calls).map
        (fun r => (r.1.m_p, r.1.m_c, is_full 1024 r.1, (push 1024 r.1 66).isSome))
      = some (0, 0, false, true) := by
  decide

set_option maxRecDepth 1000000 in
/-- C4 (`is_empty()` exact at capacity 1024), evaluated on the code: after
`init`, 1021 pushes, 1021 pops and 4 more pushes (4 bytes unread, never more
than 1021) the cursors are `m_p = 1`, `m_c = 1021`, `is_empty()` is true and
a pop waits. -/
theorem false_empty_1024 :
    (run 1024 (init zeroed) wrap_calls).map
        (fun r => (r.1.m_p, r.1.m_c, r.2.length, is_empty 1024 r.1, (pop 1024 r.1).isNone))
      = some (1, 1021, 1021, true, true)
      ∧ (pushed wrap_calls).length = 1025 := by
  decide

/-- C5 (`size()` returns the derived occupancy), evaluated on the code: at
capacity 4 after `init` and two pushes the cursors are `m_p = 3`, `m_c = 0`,
the expression inside `size()` is 2 and equals the derived occupancy, but the
value `size()` returns, converted to `bool`, is 1. -/
theorem size_truncated_to_bool :
    (run 4 (init zeroed) [Op.push 65, Op.push 66]).map
        (fun r => (r.1.m_p, r.1.m_c, size_expr 4 r.1, boolToNat (size 4 r.1)))
      = some (3, 0, 2, 1)
      ∧ spec_size 4 3 0 = 2 := by
  decide

/-- C6 (`size()` is bounded): for every capacity `N ≥ 1` and every state,
the value returned by `size()` is at least 0 and at most `N`. -/
theorem size_bounded (N : Nat) (q : blocking_queue_t) (hN : 1 ≤ N) :
    0 ≤ boolToNat (size N q) ∧ boolToNat (size N q) ≤ N :=
  ⟨Nat.zero_le _, Nat.le_trans (boolToNat_le_one _) hN⟩

theorem size_bounded_witness :
    1 ≤ 1024 ∧ 0 ≤ boolToNat (size 1024 (push_body 1024 (init zeroed) 65))
      ∧ boolToNat (size 1024 (push_body 1024 (init zeroed) 65)) ≤ 1024 :=
  ⟨by decide, size_bounded 1024 (push_body 1024 (init zeroed) 65) (by decide)⟩

/-- C7 (`init()` is idempotent): on a state whose flag is true `init()`
returns the identical state, and on every state `init()` twice equals
`init()` once. -/
theorem init_idempotent (q : blocking_queue_t) :
    (q.m_init = true → init q = q) ∧ init (init q) = init q := by
  constructor
  · exact init_of_initialized q
  · cases h : q.m_init with
    | true => rw [init_of_initialized q h, init_of_initialized q h]
    | false =>
      apply init_of_initialized
      rw [init_of_fresh q h]

theorem init_idempotent_witness :
    (push_body 4 (init zeroed) 65).m_init = true
      ∧ init (push_body 4 (init zeroed) 65) = push_body 4 (init zeroed) 65
      ∧ init (init zeroed) = init zeroed :=
  ⟨rfl, (init_idempotent (push_body 4 (init zeroed) 65)).1 rfl, (init_idempotent zeroed).2⟩

/-- C8 (`init()` on fresh memory): for every capacity and every state whose
flag is false, `init()` gives `m_p = 1`, `m_c = 0`, `m_init = true`, the same
buffer, and a queue on which `is_empty()` is true, so that `pop` waits. -/
theorem init_fresh (N : Nat) (q : blocking_queue_t) (h : q.m_init = false) :
    (init q).m_p = 1 ∧ (init q).m_c = 0 ∧ (init q).m_init = true
      ∧ (init q).m_buffer = q.m_buffer
      ∧ is_empty N (init q) = true ∧ pop N (init q) = none := by
  have he : is_empty N (init q) = true := by
    rw [init_of_fresh q h]
    simp [is_empty, size, size_expr, prev, curr, usub, UINT_RANGE_eq, boolToNat]
  rw [pop, he]
  rw [init_of_fresh q h]
  exact ⟨rfl, rfl, rfl, rfl, rfl, rfl⟩

theorem init_fresh_witness :
    zeroed.m_init = false
      ∧ (init zeroed).m_p = 1 ∧ (init zeroed).m_c = 0 ∧ (init zeroed).m_init = true
      ∧ (init zeroed).m_buffer = zeroed.m_buffer
      ∧ is_empty 1024 (init zeroed) = true ∧ pop 1024 (init zeroed) = none :=
  ⟨rfl, init_fresh 1024 zeroed rfl⟩

/-- C10 (`push` postcondition and frame): for every capacity, byte `x` and
state in which `is_full()` is false, `push(x)` returns, stores `x` in slot
`prev(m_p)`, sets the producer cursor to `next(m_p)` and leaves the consumer
cursor, the flag and every other slot unchanged. -/
theorem push_postcondition (N : Nat) (q : blocking_queue_t) (x : Nat)
    (hfull : is_full N q = false) :
    ∃ q1, push N q x = some q1
      ∧ q1.m_buffer (prev N q.m_p) = x
      ∧ q1.m_p = next N q.m_p
      ∧ q1.m_c = q.m_c
      ∧ q1.m_init = q.m_init
      ∧ ∀ i, i ≠ prev N q.m_p → q1.m_buffer i = q.m_buffer i := by
  refine ⟨push_body N q x, ?_, ?_, rfl, rfl, rfl, ?_⟩
  · simp [push, hfull]
  · simp [push_body]
  · intro i hi
    simp [push_body, Function.update_noteq hi]

theorem push_postcondition_witness :
    is_full 4 (init zeroed) = false
      ∧ ∃ q1, push 4 (init zeroed) 65 = some q1
        ∧ q1.m_buffer (prev 4 (init zeroed).m_p) = 65
        ∧ q1.m_p = next 4 (init zeroed).m_p
        ∧ q1.m_c = (init zeroed).m_c
        ∧ q1.m_init = (init zeroed).m_init
        ∧ ∀ i, i ≠ prev 4 (init zeroed).m_p → q1.m_buffer i = (init zeroed).m_buffer i :=
  ⟨by decide, push_postcondition 4 (init zeroed) 65 (by decide)⟩

/-! ## Index helpers on arbitrary cursor values -/

theorem curr_le (N x : Nat) (hN : N < 2 ^ 32 - 1) : curr N x ≤ N := by
  unfold curr
  rw [uadd_capacity N hN]
  exact Nat.le_of_lt_succ (Nat.mod_lt _ (Nat.succ_pos N))

theorem next_le (N x : Nat) (hN : N < 2 ^ 32 - 1) : next N x ≤ N :=
  curr_le N _ hN

theorem prev_next_of_le (N x : Nat) (hN : N < 2 ^ 32 - 1) (hx : x ≤ N) :
    prev N (next N x) = x := by
  by_cases h : x = N
  · rw [h, next_capacity N hN, prev_zero]
  · rw [next_of_lt N x hN (by omega), prev_succ N x hN (by omega)]

theorem next_prev_of_le (N x : Nat) (hN : N < 2 ^ 32 - 1) (hx : x ≤ N) :
    next N (prev N x) = x := by
  cases x with
  | zero => rw [prev_zero, next_capacity N hN]
  | succ k => rw [prev_succ N k hN (by omega), next_of_lt N k hN (by omega)]

/-! ## Claims on single calls and on the cursors -/

/-- C11 (`pop` postcondition and frame): for every capacity allowed by the
`static_assert` and every state whose consumer cursor `c` lies in `[0, N]`
and in which `is_empty()` is false, `pop()` returns the byte stored in slot
`c`, sets the consumer cursor to `next(c)` and leaves the producer cursor,
the flag and the buffer unchanged. -/
theorem pop_postcondition (N : Nat) (q : blocking_queue_t) (hN : N < 2 ^ 32 - 1)
    (hc : q.m_c ≤ N) (hempty : is_empty N q = false) :
    ∃ r q1, pop N q = some (r, q1)
      ∧ r = q.m_buffer q.m_c
      ∧ q1.m_c = next N q.m_c
      ∧ q1.m_p = q.m_p
      ∧ q1.m_init = q.m_init
      ∧ q1.m_buffer = q.m_buffer := by
  refine ⟨(pop_body N q).1, (pop_body N q).2, ?_, ?_, rfl, rfl, rfl, rfl⟩
  · simp [pop, hempty]
  · simp only [pop_body]
    rw [curr_of_le N q.m_c hN hc]

theorem pop_postcondition_witness :
    4 < 2 ^ 32 - 1 ∧ (push_body 4 (init zeroed) 65).m_c ≤ 4
      ∧ is_empty 4 (push_body 4 (init zeroed) 65) = false
      ∧ ∃ r q1, pop 4 (push_body 4 (init zeroed) 65) = some (r, q1)
        ∧ r = (push_body 4 (init zeroed) 65).m_buffer (push_body 4 (init zeroed) 65).m_c
        ∧ q1.m_c = next 4 (push_body 4 (init zeroed) 65).m_c
        ∧ q1.m_p = (push_body 4 (init zeroed) 65).m_p
        ∧ q1.m_init = (push_body 4 (init zeroed) 65).m_init
        ∧ q1.m_buffer = (push_body 4 (init zeroed) 65).m_buffer :=
  ⟨by decide, by decide, by decide,
    pop_postcondition 4 (push_body 4 (init zeroed) 65) (by decide) (by decide) (by decide)⟩

theorem apply_call_flag (N : Nat) (q : blocking_queue_t) (c : Call) (h : q.m_init = true) :
    (apply_call N q c).m_init = true := by
  cases c with
  | init => rw [apply_call, init_of_initialized q h]; exact h
  | push x => exact h
  | pop => exact h

theorem apply_calls_flag (N : Nat) (cs : List Call) :
    ∀ q : blocking_queue_t, q.m_init = true → (apply_calls N q cs).m_init = true := by
  induction cs with
  | nil => intro q h; exact h
  | cons c cs ih =>
    intro q h
    exact ih (apply_call N q c) (apply_call_flag N q c h)

/-- C12 (the flag never reverts): for every state whose flag is true, the
flag is true after `init()`, after a `push` that returns, after a `pop` that
returns, and after the updates of any sequence of `init`, `push` and `pop`
calls. -/
theorem flag_never_reverts (N : Nat) (q : blocking_queue_t) (h : q.m_init = true) :
    (init q).m_init = true
      ∧ (∀ x q1, push N q x = some q1 → q1.m_init = true)
      ∧ (∀ r q1, pop N q = some (r, q1) → q1.m_init = true)
      ∧ ∀ cs, (apply_calls N q cs).m_init = true := by
  refine ⟨apply_call_flag N q Call.init h, ?_, ?_, fun cs => apply_calls_flag N cs q h⟩
  · intro x q1 hq
    unfold push at hq
    split at hq
    · cases hq
    · cases hq; exact h
  · intro r q1 hq
    unfold pop at hq
    split at hq
    · cases hq
    · cases hq; exact h

theorem flag_never_reverts_witness :
    (init zeroed).m_init = true
      ∧ (init (init zeroed)).m_init = true
      ∧ (∀ x q1, push 1024 (init zeroed) x = some q1 → q1.m_init = true)
      ∧ (∀ r q1, pop 1024 (init zeroed) = some (r, q1) → q1.m_init = true)
      ∧ ∀ cs, (apply_calls 1024 (init zeroed) cs).m_init = true :=
  ⟨rfl, flag_never_reverts 1024 (init zeroed) rfl⟩

theorem apply_call_normalized (N : Nat) (q : blocking_queue_t) (c : Call)
    (hN : N < 2 ^ 32 - 1) (h : q.m_init = true ∧ q.m_p ≤ N ∧ q.m_c ≤ N) :
    (apply_call N q c).m_init = true ∧ (apply_call N q c).m_p ≤ N
      ∧ (apply_call N q c).m_c ≤ N := by
  cases c with
  | init => rw [apply_call, init_of_initialized q h.1]; exact h
  | push x => exact ⟨h.1, next_le N _ hN, h.2.2⟩
  | pop => exact ⟨h.1, h.2.1, next_le N _ hN⟩

/-- C16 (cursor normalization): for every capacity `N ≥ 1` allowed by the
`static_assert`, from any state whose flag is false, after `init()` and the
updates of any sequence of `init`, `push` and `pop` calls both cursors lie
in `[0, N]`. -/
theorem cursors_normalized (N : Nat) (q : blocking_queue_t) (cs : List Call)
    (h1 : 1 ≤ N) (hN : N < 2 ^ 32 - 1) (hfresh : q.m_init = false) :
    (apply_calls N (init q) cs).m_p ≤ N ∧ (apply_calls N (init q) cs).m_c ≤ N := by
  have hstart : (init q).m_init = true ∧ (init q).m_p ≤ N ∧ (init q).m_c ≤ N := by
    rw [init_of_fresh q hfresh]
    exact ⟨rfl, h1, Nat.zero_le N⟩
  have hall : ∀ (cs : List Call) (s : blocking_queue_t),
      (s.m_init = true ∧ s.m_p ≤ N ∧ s.m_c ≤ N) →
      ((apply_calls N s cs).m_init = true ∧ (apply_calls N s cs).m_p ≤ N
        ∧ (apply_calls N s cs).m_c ≤ N) := by
    intro cs
    induction cs with
    | nil => intro s hs; exact hs
    | cons c cs ih =>
      intro s hs
      exact ih (apply_call N s c) (apply_call_normalized N s c hN hs)
  exact (hall cs (init q) hstart).2

theorem cursors_normalized_witness :
    1 ≤ 4 ∧ 4 < 2 ^ 32 - 1 ∧ zeroed.m_init = false
      ∧ (apply_calls 4 (init zeroed)
          [Call.push 65, Call.push 66, Call.push 67, Call.push 68, Call.pop, Call.init,
            Call.push 69]).m_p ≤ 4
      ∧ (apply_calls 4 (init zeroed)
          [Call.push 65, Call.push 66, Call.push 67, Call.push 68, Call.pop, Call.init,
            Call.push 69]).m_c ≤ 4 :=
  ⟨by decide, by decide, rfl,
    cursors_normalized 4 zeroed
      [Call.push 65, Call.push 66, Call.push 67, Call.push 68, Call.pop, Call.init,
        Call.push 69] (by decide) (by decide) rfl⟩

set_option maxRecDepth 1000000 in
/-- C15 (the composed size formula under machine arithmetic), evaluated on
the code: at capacity 1024 after `init`, one push, one pop and 1024 more
pushes the cursors are `m_p = 1`, `m_c = 1` (1024 bytes unread); the
expression `curr(prev(m_p) - curr(m_c))` evaluates to 1020 in 32-bit unsigned
arithmetic, while `(p - 1 - c) mod (N + 1)` over the integers is 1024. -/
theorem size_expr_wraps_1024 :
    (run 1024 (init zeroed) refill_calls).map
        (fun r => (r.1.m_p, r.1.m_c, prev 1024 r.1.m_p, curr 1024 r.1.m_c, size_expr 1024 r.1))
      = some (1, 1, 0, 1, 1020)
      ∧ usub 0 1 = 4294967295
      ∧ spec_size 1024 1 1 = 1024
      ∧ within_capacity 1024 0 refill_calls = true := by
  decide

theorem CHECK_zero (einval : Int) (st : Prim) : CHECK einval st 0 = [] := by
  simp [CHECK]

theorem push_wait_eq (N : Nat) (q : blocking_queue_t) (fuel : Nat) :
    push_wait N q (fuel + 1)
      = if is_full N q then LoopResult.running else LoopResult.finished () := by
  induction fuel with
  | zero => simp [push_wait]
  | succ k ih =>
    rw [push_wait]
    split
    · rw [ih, if_pos (by assumption)]
    · rfl

theorem pop_wait_eq (N : Nat) (einval : Int) (waits : Nat → Int) (q : blocking_queue_t)
    (fuel : Nat) : ∀ (i : Nat) (log : List LogLine),
    pop_wait N einval waits q (fuel + 1) i log
      = if is_empty N q then LoopResult.running else LoopResult.finished log := by
  induction fuel with
  | zero => intro i log; simp [pop_wait]
  | succ k ih =>
    intro i log
    rw [pop_wait]
    split
    · rw [ih, if_pos (by assumption)]
    · rfl

/-- C17 (primitive failures never change the queue operation): for all
return codes of the lock, wait, broadcast and unlock calls and any number
of tests of the wait loop, `push` makes the same buffer write and cursor
advance and `pop` returns the same byte and makes the same cursor advance as
when every call returns 0, and they are what `push` and `pop` do; with all
codes 0 a call that returns has logged nothing. -/
theorem return_codes_ignored (N : Nat) (einval lock bcast unlock : Int)
    (waits : Nat → Int) (q : blocking_queue_t) (x : Nat) (fuel : Nat) (hfuel : 1 ≤ fuel) :
    (push_rc N einval lock bcast unlock q x fuel).map (fun r => r.1)
        = (push_rc N einval 0 0 0 q x fuel).map (fun r => r.1)
      ∧ (push_rc N einval lock bcast unlock q x fuel).map (fun r => r.1)
        = as_loop (push N q x)
      ∧ (pop_rc N einval lock bcast unlock waits q fuel).map (fun r => (r.1, r.2.1))
        = (pop_rc N einval 0 0 0 (fun _ => 0) q fuel).map (fun r => (r.1, r.2.1))
      ∧ (pop_rc N einval lock bcast unlock waits q fuel).map (fun r => (r.1, r.2.1))
        = as_loop (pop N q)
      ∧ (push_rc N einval 0 0 0 q x fuel).map (fun r => r.2)
        = as_loop ((push N q x).map (fun _ => []))
      ∧ (pop_rc N einval 0 0 0 (fun _ => 0) q fuel).map (fun r => r.2.2)
        = as_loop ((pop N q).map (fun _ => [])) := by
  obtain ⟨k, rfl⟩ : ∃ k, fuel = k + 1 := ⟨fuel - 1, by omega⟩
  unfold push_rc pop_rc push pop
  simp only [push_wait_eq, pop_wait_eq]
  cases is_full N q <;> cases is_empty N q <;>
    simp [CHECK_zero, LoopResult.map, as_loop, pop_body]

theorem return_codes_ignored_witness :
    1 ≤ 3
      ∧ (push_rc 4 22 22 1 16 (init zeroed) 65 3).map (fun r => r.1)
        = (push_rc 4 22 0 0 0 (init zeroed) 65 3).map (fun r => r.1)
      ∧ (push_rc 4 22 22 1 16 (init zeroed) 65 3).map (fun r => r.1)
        = as_loop (push 4 (init zeroed) 65)
      ∧ (pop_rc 4 22 22 1 16 (fun _ => 22) (init zeroed) 3).map (fun r => (r.1, r.2.1))
        = (pop_rc 4 22 0 0 0 (fun _ => 0) (init zeroed) 3).map (fun r => (r.1, r.2.1))
      ∧ (pop_rc 4 22 22 1 16 (fun _ => 22) (init zeroed) 3).map (fun r => (r.1, r.2.1))
        = as_loop (pop 4 (init zeroed))
      ∧ (push_rc 4 22 0 0 0 (init zeroed) 65 3).map (fun r => r.2)
        = as_loop ((push 4 (init zeroed) 65).map (fun _ => []))
      ∧ (pop_rc 4 22 0 0 0 (fun _ => 0) (init zeroed) 3).map (fun r => r.2.2)
        = as_loop ((pop 4 (init zeroed)).map (fun _ => [])) :=
  ⟨by decide, return_codes_ignored 4 22 22 1 16 (fun _ => 22) (init zeroed) 65 3 (by decide)⟩

/-- C18 (`is_full()` at capacity 1024): in every state `is_full()` returns
false, so `push` does not wait and runs its update block at once. -/
theorem is_full_never_1024 (q : blocking_queue_t) (x : Nat) :
    is_full 1024 q = false ∧ push 1024 q x = some (push_body 1024 q x) :=
  ⟨is_full_1024 q, push_1024 q x⟩

/-- C19 (buffer accesses in bounds): for every capacity with
`N < 2 ^ 32 - 1` (so for `1 ≤ N < 2 ^ 32 - 1`) and all cursor values `p` and
`c` (so for all 32-bit values, normalized or not), the slot
written by `push`, `prev(p)`, and the slot read by `pop`, `curr(c)`, are at
most `N`. -/
theorem buffer_access_in_bounds (N p c : Nat) (hN : N < 2 ^ 32 - 1) :
    prev N p ≤ N ∧ curr N c ≤ N :=
  ⟨prev_le N p hN, curr_le N c hN⟩

theorem buffer_access_in_bounds_witness :
    1024 < 2 ^ 32 - 1
      ∧ prev 1024 4294967295 ≤ 1024 ∧ curr 1024 3000000000 ≤ 1024 :=
  ⟨by decide, buffer_access_in_bounds 1024 4294967295 3000000000 (by decide)⟩

/-- C20 (the index helpers are mutually inverse on normalized indices): for
every capacity with `N < 2 ^ 32 - 1` (so for `1 ≤ N < 2 ^ 32 - 1`) and every
`x` in `[0, N]`,
`curr(x) = x`, `prev(next(x)) = x` and `next(prev(x)) = x`. -/
theorem index_helpers_inverse (N x : Nat) (hN : N < 2 ^ 32 - 1) (hx : x ≤ N) :
    curr N x = x ∧ prev N (next N x) = x ∧ next N (prev N x) = x :=
  ⟨curr_of_le N x hN hx, prev_next_of_le N x hN hx, next_prev_of_le N x hN hx⟩

theorem index_helpers_inverse_witness :
    1024 < 2 ^ 32 - 1 ∧ 1024 ≤ 1024
      ∧ curr 1024 1024 = 1024 ∧ prev 1024 (next 1024 1024) = 1024
      ∧ next 1024 (prev 1024 1024) = 1024 :=
  ⟨by decide, by decide, index_helpers_inverse 1024 1024 (by decide) (by decide)⟩

/-! ## The ring buffer as a queue of unread bytes -/

theorem next_mod (N a : Nat) (hN : N < 2 ^ 32 - 1) :
    next N (a % (N + 1)) = (a + 1) % (N + 1) := by
  have hlt : a % (N + 1) < N + 1 := Nat.mod_lt _ (Nat.succ_pos N)
  rw [← Nat.mod_add_mod a (N + 1) 1]
  by_cases h : a % (N + 1) = N
  · rw [h, next_capacity N hN, Nat.mod_self]
  · have h2 : (a % (N + 1) + 1) % (N + 1) = a % (N + 1) + 1 :=
      Nat.mod_eq_of_lt (by omega)
    rw [next_of_lt N (a % (N + 1)) hN (by omega), h2]

theorem prev_mod (N b : Nat) (hN : N < 2 ^ 32 - 1) :
    prev N ((b + 1) % (N + 1)) = b % (N + 1) := by
  rw [← next_mod N b hN]
  exact prev_next_of_le N _ hN (Nat.le_of_lt_succ (Nat.mod_lt _ (Nat.succ_pos N)))

theorem mod_ne_of_gap (N a d : Nat) (h0 : 0 < d) (hd : d ≤ N) :
    a % (N + 1) ≠ (a + d) % (N + 1) := by
  intro h
  have h1 : (a + d - a) % (N + 1) = 0 := Nat.sub_mod_eq_zero_of_mod_eq h.symm
  rw [Nat.add_sub_cancel_left, Nat.mod_eq_of_lt (by omega)] at h1
  omega

theorem ring_holds_push (N : Nat) (buf : Nat → Nat) (x : Nat) (content : List Nat) :
    ∀ a, content.length ≤ N → ring_holds N buf a content →
      ring_holds N (Function.update buf ((a + content.length) % (N + 1)) x) a
        (content ++ [x]) := by
  induction content with
  | nil =>
    intro a _ _
    simp [ring_holds]
  | cons y ys ih =>
    intro a hlen h
    simp only [List.length_cons] at hlen
    have hidx : a + (y :: ys).length = a + 1 + ys.length := by
      simp only [List.length_cons]; omega
    rw [hidx]
    refine ⟨?_, ih (a + 1) (by omega) h.2⟩
    rw [Function.update_noteq]
    · exact h.1
    · have := mod_ne_of_gap N a (1 + ys.length) (by omega) (by omega)
      rw [← Nat.add_assoc] at this
      exact this

theorem represents_init (N : Nat) (q : blocking_queue_t) (h1 : 1 ≤ N)
    (hfresh : q.m_init = false) : represents N (init q) 0 [] := by
  rw [init_of_fresh q hfresh]
  refine ⟨by simp, ?_, Nat.zero_le N, trivial⟩
  simp only [List.length_nil, Nat.add_zero, Nat.zero_add]
  exact (Nat.mod_eq_of_lt (by omega)).symm

theorem represents_push (N : Nat) (q : blocking_queue_t) (a x : Nat) (content : List Nat)
    (hN : N < 2 ^ 32 - 1) (h : represents N q a content) (hroom : content.length < N) :
    represents N (push_body N q x) a (content ++ [x]) := by
  obtain ⟨hc, hp, _, hbuf⟩ := h
  have hw : prev N q.m_p = (a + content.length) % (N + 1) := by
    rw [hp]; exact prev_mod N _ hN
  refine ⟨hc, ?_, ?_, ?_⟩
  · simp only [push_body, List.length_append, List.length_singleton]
    rw [hp, next_mod N _ hN]
    rfl
  · simp only [List.length_append, List.length_singleton]; omega
  · simp only [push_body, hw]
    exact ring_holds_push N q.m_buffer x content a (by omega) hbuf

theorem represents_pop (N : Nat) (q : blocking_queue_t) (a y : Nat) (ys : List Nat)
    (hN : N < 2 ^ 32 - 1) (h : represents N q a (y :: ys)) :
    (pop_body N q).1 = y ∧ represents N (pop_body N q).2 (a + 1) ys := by
  obtain ⟨hc, hp, hlen, hbuf⟩ := h
  simp only [List.length_cons] at hlen hp
  have hcle : a % (N + 1) ≤ N := Nat.le_of_lt_succ (Nat.mod_lt _ (Nat.succ_pos N))
  refine ⟨?_, ?_, ?_, by omega, hbuf.2⟩
  · simp only [pop_body]
    rw [hc, curr_of_le N _ hN hcle]
    exact hbuf.1
  · simp only [pop_body]
    rw [hc, next_mod N a hN]
  · simp only [pop_body]
    rw [hp]
    congr 1
    omega

/-- From a state that represents `content`, the update blocks deliver the
unread bytes and then the newly pushed ones, in order. -/
theorem run_body_fifo (N : Nat) (hN : N < 2 ^ 32 - 1) (ops : List Op) :
    ∀ (q : blocking_queue_t) (a : Nat) (content : List Nat),
      represents N q a content → within_capacity N content.length ops = true →
      (run_body N q ops).2 = (content ++ pushed ops).take (pops ops) := by
  induction ops with
  | nil => intro q a content _ _; simp [run_body, pops]
  | cons op ops ih =>
    intro q a content hrep hcap
    cases op with
    | push x =>
      simp only [within_capacity, Bool.and_eq_true, decide_eq_true_eq] at hcap
      have hrep1 := represents_push N q a x content hN hrep hcap.1
      have hcap1 : within_capacity N (content ++ [x]).length ops = true := by
        simpa using hcap.2
      rw [run_body, ih _ a _ hrep1 hcap1]
      simp [pushed, pops]
    | pop =>
      simp only [within_capacity, Bool.and_eq_true, decide_eq_true_eq] at hcap
      cases content with
      | nil => simp at hcap
      | cons y ys =>
        obtain ⟨hy, hrep1⟩ := represents_pop N q a y ys hN hrep
        have hcap1 : within_capacity N ys.length ops = true := by
          simpa using hcap.2
        simp only [run_body, pushed, pops]
        rw [ih _ (a + 1) ys hrep1 hcap1, hy]
        simp

/-- C14 (the data path is FIFO): for every capacity `N ≥ 1` allowed by the
`static_assert`, on memory whose flag is false, after `init()` the update
blocks of any sequence of pushes and pops during which the number of bytes
pushed and not yet popped stays between 0 and `N` return the pushed bytes in
order: the k-th pop returns the k-th pushed byte, wraparound included. -/
theorem data_path_fifo (N : Nat) (q : blocking_queue_t) (ops : List Op)
    (h1 : 1 ≤ N) (hN : N < 2 ^ 32 - 1) (hfresh : q.m_init = false)
    (hcap : within_capacity N 0 ops = true) :
    (run_body N (init q) ops).2 = (pushed ops).take (pops ops) := by
  have h := run_body_fifo N hN ops (init q) 0 [] (represents_init N q h1 hfresh) hcap
  simpa using h

theorem data_path_fifo_witness :
    1 ≤ 4 ∧ 4 < 2 ^ 32 - 1 ∧ zeroed.m_init = false
      ∧ within_capacity 4 0
          [Op.push 65, Op.push 66, Op.push 67, Op.push 68, Op.pop, Op.push 69,
            Op.pop, Op.pop, Op.pop, Op.pop] = true
      ∧ (run_body 4 (init zeroed)
          [Op.push 65, Op.push 66, Op.push 67, Op.push 68, Op.pop, Op.push 69,
            Op.pop, Op.pop, Op.pop, Op.pop]).2
        = (pushed
          [Op.push 65, Op.push 66, Op.push 67, Op.push 68, Op.pop, Op.push 69,
            Op.pop, Op.pop, Op.pop, Op.pop]).take
          (pops
            [Op.push 65, Op.push 66, Op.push 67, Op.push 68, Op.pop, Op.push 69,
              Op.pop, Op.pop, Op.pop, Op.pop]) :=
  ⟨by decide, by decide, rfl, by decide,
    data_path_fifo 4 zeroed
      [Op.push 65, Op.push 66, Op.push 67, Op.push 68, Op.pop, Op.push 69,
        Op.pop, Op.pop, Op.pop, Op.pop] (by decide) (by decide) rfl (by decide)⟩

/-! ## One producer and one consumer process -/

/-- Any number of update blocks of `push` advances the producer cursor
modulo `N + 1` and leaves the consumer cursor alone. -/
theorem push_all_cursors (N : Nat) (hN : N < 2 ^ 32 - 1) (xs : List Nat) :
    ∀ q : blocking_queue_t, q.m_p ≤ N →
      (xs.foldl (push_body N) q).m_p = (q.m_p + xs.length) % (N + 1)
      ∧ (xs.foldl (push_body N) q).m_c = q.m_c := by
  induction xs with
  | nil =>
    intro q hp
    refine ⟨?_, rfl⟩
    simp only [List.foldl_nil, List.length_nil, Nat.add_zero]
    exact (Nat.mod_eq_of_lt (by omega)).symm
  | cons x xs ih =>
    intro q hp
    have hstep : (push_body N q x).m_p = (q.m_p + 1) % (N + 1) := by
      have h := next_mod N q.m_p hN
      rw [Nat.mod_eq_of_lt (by omega)] at h
      exact h
    obtain ⟨g1, g2⟩ := ih (push_body N q x) (next_le N _ hN)
    refine ⟨?_, g2⟩
    rw [List.foldl_cons, g1, hstep, Nat.mod_add_mod, List.length_cons]
    congr 1
    omega

theorem pop_of_eq (N : Nat) (q : blocking_queue_t) (hN : N < 2 ^ 32 - 1)
    (hc : q.m_c = prev N q.m_p) : pop N q = none := by
  have hp := prev_le N q.m_p hN
  have hsz := size_expr_of_le N q hN hp (Nat.le_of_eq hc)
  have he : is_empty N q = true := by
    have : size N q = false := by
      unfold size
      rw [hsz]
      exact decide_eq_false (by omega)
    simp [is_empty, this, boolToNat]
  simp [pop, he]

theorem sched_run_append (N : Nat) (s : Procs) (a b : List Bool) :
    sched_run N s (a ++ b) = sched_run N (sched_run N s a) b := by
  simp only [sched_run, List.foldl_append]

theorem producer_steps (xs : List Nat) :
    ∀ (q : blocking_queue_t) (n : Nat) (out : List Nat) (k : Nat), k = xs.length →
      sched_run 1024 { queue := q, to_push := xs, to_pop := n, popped := out }
          (List.replicate k true)
        = { queue := xs.foldl (push_body 1024) q, to_push := [], to_pop := n,
            popped := out } := by
  induction xs with
  | nil =>
    intro q n out k hk
    subst hk
    rfl
  | cons x xs ih =>
    intro q n out k hk
    subst hk
    have h := ih (push_body 1024 q x) n out xs.length rfl
    simp only [List.length_cons, List.replicate_succ, sched_run, List.foldl_cons]
    rw [sched_run] at h
    rw [← h]
    congr 1
    simp only [sched_step, if_true, push_1024]

theorem consumer_steps (N : Nat) (hN : N < 2 ^ 32 - 1) (k : Nat) :
    ∀ (q : blocking_queue_t) (n : Nat) (out : List Nat), q.m_c + k ≤ prev N q.m_p →
      ∃ outs, outs.length = k
        ∧ (0 < k → outs.head? = some (q.m_buffer q.m_c))
        ∧ sched_run N { queue := q, to_push := [], to_pop := n + k, popped := out }
            (List.replicate k false)
          = { queue := { q with m_c := q.m_c + k }, to_push := [], to_pop := n,
              popped := out ++ outs } := by
  induction k with
  | zero =>
    intro q n out _
    exact ⟨[], rfl, fun h => absurd h (Nat.lt_irrefl 0), by simp [sched_run]⟩
  | succ k ih =>
    intro q n out hc
    have hpop := pop_of_lt N q hN (by omega)
    obtain ⟨outs, hl, _, hrun⟩ := ih { q with m_c := q.m_c + 1 } n
      (out ++ [q.m_buffer q.m_c]) (by simp only []; omega)
    refine ⟨q.m_buffer q.m_c :: outs, by simp [hl], fun _ => rfl, ?_⟩
    rw [List.replicate_succ, sched_run, List.foldl_cons]
    rw [sched_run] at hrun
    have hstep : sched_step N
        { queue := q, to_push := [], to_pop := n + (k + 1), popped := out } false
        = { queue := { q with m_c := q.m_c + 1 }, to_push := [], to_pop := n + k,
            popped := out ++ [q.m_buffer q.m_c] } := by
      simp only [sched_step, Bool.false_eq_true, if_false]
      rw [show n + (k + 1) = (n + k) + 1 from rfl]
      simp only [hpop]
      rfl
    rw [hstep, hrun]
    have hidx : q.m_c + 1 + k = q.m_c + (k + 1) := by omega
    simp only [hidx, List.append_assoc, List.singleton_append]

theorem sched_stuck (N : Nat) (sched : List Bool) :
    ∀ s : Procs, s.to_push = [] → pop N s.queue = none → sched_run N s sched = s := by
  induction sched with
  | nil => intro s _ _; rfl
  | cons b bs ih =>
    intro s h1 h2
    have hstep : sched_step N s b = s := by
      cases b with
      | true => simp [sched_step, h1]
      | false =>
        simp only [sched_step, Bool.false_eq_true, if_false]
        cases s.to_pop with
        | zero => rfl
        | succ k => simp only [h2]
    rw [sched_run, List.foldl_cons, hstep]
    exact ih s h1 h2

/-- After the producer has finished, on a queue with `m_p = 576` and
`m_c = 0` the consumer makes 575 pops, the first of slot 0, and then waits. -/
theorem consumer_after_producer (Q0 : blocking_queue_t) (hp : Q0.m_p = 576)
    (hc : Q0.m_c = 0) :
    ∃ outs : List Nat, outs.length = 575
      ∧ outs.head? = some (Q0.m_buffer 0)
      ∧ sched_run 1024 { queue := Q0, to_push := [], to_pop := 100000, popped := [] }
          (List.replicate 575 false)
        = { queue := { Q0 with m_c := Q0.m_c + 575 }, to_push := [], to_pop := 99425,
            popped := outs }
      ∧ pop 1024 { Q0 with m_c := Q0.m_c + 575 } = none := by
  have hN : 1024 < 2 ^ 32 - 1 := by norm_num
  have hprev : prev 1024 576 = 575 := by decide
  have hgap : Q0.m_c + 575 = prev 1024 Q0.m_p := by rw [hp, hc, hprev]
  obtain ⟨outs, hl, hhead, h2⟩ := consumer_steps 1024 hN 575 Q0 99425 [] (Nat.le_of_eq hgap)
  refine ⟨outs, hl, ?_, ?_, pop_of_eq 1024 _ hN hgap⟩
  · rw [hhead (by norm_num), hc]
  · rw [show (100000 : Nat) = 99425 + 575 by norm_num, h2, List.nil_append]

theorem stress_bytes_length : (100000 : Nat) = stress_bytes.length := by
  rw [stress_bytes, List.length_map, List.length_range]

theorem stress_after_producer :
    (stress_bytes.foldl (push_body 1024) (init zeroed)).m_p = 576
      ∧ (stress_bytes.foldl (push_body 1024) (init zeroed)).m_c = 0 := by
  have hN : 1024 < 2 ^ 32 - 1 := by norm_num
  obtain ⟨hp, hc⟩ := push_all_cursors 1024 hN stress_bytes (init zeroed) (by decide)
  have hstart : (init zeroed).m_p = 1 := rfl
  rw [← stress_bytes_length, hstart] at hp
  exact ⟨by rw [hp], by rw [hc]; rfl⟩

theorem slot_zero_last_writer (A B : List Nat) (x : Nat) (q : blocking_queue_t)
    (hp : q.m_p = 1) (hA : A.length = 99425) (hB : B.length = 574) :
    ((A ++ x :: B).foldl (push_body 1024) q).m_buffer 0 = x := by
  have hN : 1024 < 2 ^ 32 - 1 := by norm_num
  obtain ⟨hp1, _⟩ := push_all_cursors 1024 hN A q (by omega)
  rw [hp, hA] at hp1
  have hp1b : (A.foldl (push_body 1024) q).m_p = 1 := by rw [hp1]
  have hprev1 : prev 1024 1 = 0 := by decide
  have hnext1 : next 1024 1 = 2 := by decide
  have hprev2 : prev 1024 2 = 1 := by decide
  have hq2p : (push_body 1024 (A.foldl (push_body 1024) q) x).m_p = 2 := by
    simp only [push_body, hp1b, hnext1]
  have hq2b : (push_body 1024 (A.foldl (push_body 1024) q) x).m_buffer 0 = x := by
    simp only [push_body, hp1b, hprev1, Function.update_same]
  obtain ⟨_, _, _, _, g5, _⟩ := push_all_spec 1024 hN B
    (push_body 1024 (A.foldl (push_body 1024) q) x) 1 (by omega) (by rw [hq2p, hprev2])
    (by omega)
  rw [List.foldl_append, List.foldl_cons, g5 0 (by omega), hq2b]

theorem stress_bytes_split :
    ∃ A B : List Nat, stress_bytes = A ++ 97 :: B ∧ A.length = 99425 ∧ B.length = 574 := by
  have h : 99425 < stress_bytes.length := by
    rw [← stress_bytes_length]; norm_num
  refine ⟨stress_bytes.take 99425, stress_bytes.drop 99426, ?_, ?_, ?_⟩
  · have h97 : stress_bytes[99425] = 97 := by
      simp only [stress_bytes, List.getElem_map, List.getElem_range]
    rw [← h97, ← List.drop_eq_getElem_cons h, List.take_append_drop]
  · rw [List.length_take, ← stress_bytes_length]; norm_num
  · rw [List.length_drop, ← stress_bytes_length]

theorem stress_slot_zero :
    (stress_bytes.foldl (push_body 1024) (init zeroed)).m_buffer 0 = 97 := by
  obtain ⟨A, B, hsplit, hA, hB⟩ := stress_bytes_split
  rw [hsplit]
  exact slot_zero_last_writer A B 97 (init zeroed) rfl hA hB

theorem stress_bytes_head : stress_bytes.head? = some 0 := by
  rw [stress_bytes, List.head?_map, List.head?_range]
  rfl

/-- C13 (concurrent stress at capacity 1024), evaluated on the code along
the interleaving in which the producer process makes its 100,000 pushes
before the consumer process makes its first pop: no push waits; the first
pop returns 97, byte number 99,426 of the stream, although the first byte
pushed is 0; after 575 pops `pop` waits, and from then on no scheduling
decision changes the configuration, in which the consumer has 99,425 pops
still to make. -/
theorem stress_producer_first :
    ∃ (Q : blocking_queue_t) (outs : List Nat),
      sched_run 1024 stress_start producer_first
          = { queue := Q, to_push := [], to_pop := 99425, popped := outs }
        ∧ outs.length = 575
        ∧ outs.head? = some 97
        ∧ stress_bytes.head? = some 0
        ∧ pop 1024 Q = none
        ∧ ∀ sched, sched_run 1024 (sched_run 1024 stress_start producer_first) sched
            = sched_run 1024 stress_start producer_first := by
  obtain ⟨outs, hl, hhead, h2, h3⟩ := consumer_after_producer
    (stress_bytes.foldl (push_body 1024) (init zeroed))
    stress_after_producer.1 stress_after_producer.2
  have hrun : sched_run 1024 stress_start producer_first
      = { queue := { stress_bytes.foldl (push_body 1024) (init zeroed) with
            m_c := (stress_bytes.foldl (push_body 1024) (init zeroed)).m_c + 575 },
          to_push := [], to_pop := 99425, popped := outs } := by
    rw [producer_first, sched_run_append, stress_start,
      producer_steps stress_bytes (init zeroed) 100000 [] 100000 stress_bytes_length, h2]
  refine ⟨_, outs, hrun, hl, ?_, stress_bytes_head, h3, ?_⟩
  · rw [hhead, stress_slot_zero]
  · intro sched
    rw [hrun]
    exact sched_stuck 1024 sched _ rfl h3

end ShmQueue
